import Mathlib

/-!
Verification development for the rusty-k k-mer counter
(src/main.rs: canonicalization, hashing, threaded counting, decoding;
src/histogram.rs: count histogram builder).

Sequences are modelled as `List Char`; the inputs of interest are ASCII, where
Rust byte-wise string operations coincide with the character-wise model.
Machine integers are modelled as `Nat` with explicit bounds: `u32` arithmetic
uses Rust's checked (overflow is a program error) semantics, so a fallible
computation returns `Option`, `none` standing for a panic/abort.
-/

namespace RustyK

/-- The `u32` modulus. -/
def U32 : Nat := 2 ^ 32

/-! ## Canonicalizer (src/main.rs lines 9-37) -/

/-- Model of `complement` (src/main.rs lines 29-37): Watson-Crick complement of
a base; any other character passes through unchanged. -/
def complement (base : Char) : Char :=
  if base = 'A' then 'T'
  else if base = 'C' then 'G'
  else if base = 'G' then 'C'
  else if base = 'T' then 'A'
  else base

/-- Model of `revcomp` (src/main.rs lines 20-26): iterate the characters in
reverse order, pushing each complement. -/
def revcomp (sequence : List Char) : List Char :=
  sequence.reverse.map complement

/-- Byte-wise lexicographic strict order on strings, as Rust's `<` on `&str`
(for ASCII text, byte order and character order coincide). -/
def strLt : List Char → List Char → Bool
  | [], [] => false
  | [], _ :: _ => true
  | _ :: _, [] => false
  | a :: as, b :: bs => if a < b then true else if b < a then false else strLt as bs

/-- Model of `canonical_kmer` (src/main.rs lines 10-17): the smaller of the
k-mer and its reverse complement; on a tie the code returns `rev_comp`, whose
value then equals the forward k-mer. -/
def canonical_kmer (kmer : List Char) : List Char :=
  if strLt kmer (revcomp kmer) then kmer else revcomp kmer

/-! ## Hasher (src/main.rs lines 40-42) -/

/-- Modelled from the spec: `hash_kmer` calls `xxh3_64` from the external
`xxhash_rust` crate, whose source is not part of this repository. The spec
fixes only these properties (§4.3, §9): a fixed, deterministic,
non-cryptographic 64-bit hash of the canonical window's bytes that is *not* a
reversible 2-bit packing ("the source pairs a non-reversible hash for counting
with a decode routine that assumes a reversible 2-bit packed key").  It is
modelled here by the 64-bit FNV-1a hash, which has exactly those properties.
Characters are taken as single bytes, faithful for the ASCII inputs considered.
-/
def hash_kmer (kmer : List Char) : Nat :=
  kmer.foldl (fun h c => ((h ^^^ c.toNat) * 0x100000001b3) % 2 ^ 64) 0xcbf29ce484222325

/-! ## Decoder (src/main.rs lines 136-153) -/

/-- Model of `hash_to_kmer` (src/main.rs lines 136-153): read the key two bits
at a time (`hash & 0x3`, then `hash >>= 2`), mapping 0,1,2,3 to A,C,G,T; the
first pushed character comes from the lowest bits. -/
def hash_to_kmer (hash : Nat) (k : Nat) : List Char :=
  match k with
  | 0 => []
  | k + 1 =>
    (match hash % 4 with
     | 0 => 'A'
     | 1 => 'C'
     | 2 => 'G'
     | _ => 'T') :: hash_to_kmer (hash / 4) k

/-- Modelled from the spec: the reversible 2-bit packed integer key of §4.3
option (a) ("use a reversible 2-bit packed integer as both the counting key
and decode source"), matching the decoder's bit layout: the first character
occupies the lowest two bits (A=0, C=1, G=2, T=3).  No function of the source
computes this key; it is the encoding the decoder `hash_to_kmer` assumes. -/
def pack_kmer : List Char → Nat
  | [] => 0
  | c :: rest =>
    (if c = 'A' then 0 else if c = 'C' then 1 else if c = 'G' then 2 else 3)
      + 4 * pack_kmer rest

/-! ## Windows and per-sequence counting (src/main.rs lines 45-56) -/

/-- The k-length windows of a sequence: `&sequence[i..i+k]` for
`i in 0..(len - k + 1)` (meaningful when `k ≤ len`). -/
def windows (sequence : List Char) (k : Nat) : List (List Char) :=
  (List.range (sequence.length - k + 1)).map (fun i => (sequence.drop i).take k)

/-! ## Count tables

Rust `HashMap<K, u32>` tables are modelled as association lists with unique
keys, in insertion order.  `bump t key c` models
`*table.entry(key).or_insert(0) += c` with checked (debug) `u32` overflow
semantics: the run panics, modelled `none`, when a count would reach `2^32`. -/

/-- Increment the entry of `key` by `c`, inserting it at the end when absent
(`entry(key).or_insert(0) += c`); `none` models the `u32` overflow panic. -/
def bump {α : Type} [DecidableEq α] :
    List (α × Nat) → α → Nat → Option (List (α × Nat))
  | [], key, c => if c < U32 then some [(key, c)] else none
  | (a, v) :: t, key, c =>
    if a = key then
      (if v + c < U32 then some ((a, v + c) :: t) else none)
    else
      (bump t key c).map (fun t2 => (a, v) :: t2)

/-- Fold a list of (key, increment) pairs into a table with `bump`, as the
merge loops `for (key, count) in source { *table.entry(key)... += count }`. -/
def mergeList {α : Type} [DecidableEq α] :
    List (α × Nat) → List (α × Nat) → Option (List (α × Nat))
  | t, [] => some t
  | t, (key, c) :: rest =>
    match bump t key c with
    | none => none
    | some t2 => mergeList t2 rest

/-- The count stored for a key (0 when absent, as `or_insert(0)` would see). -/
def lookup {α : Type} [DecidableEq α] : List (α × Nat) → α → Nat
  | [], _ => 0
  | (a, v) :: t, key => if a = key then v else lookup t key

/-- The keys of a table. -/
def keysOf {α : Type} (t : List (α × Nat)) : List α :=
  t.map (·.1)

/-- Total increment that a list of (key, increment) pairs carries for a key. -/
def sumKey {α : Type} [DecidableEq α] : List (α × Nat) → α → Nat
  | [], _ => 0
  | (a, c) :: rest, key => (if a = key then c else 0) + sumKey rest key

/-- Sum of all stored counts of a table. -/
def sumValues {α : Type} (t : List (α × Nat)) : Nat :=
  (t.map (·.2)).sum

/-! ## Per-sequence counting (src/main.rs lines 45-56) -/

/-- The (key, 1) increment stream a sequence feeds into its table: one
increment per window, keyed by the hash of the canonical window. -/
def seqIncs (sequence : List Char) (k : Nat) : List (Nat × Nat) :=
  (windows sequence k).map (fun w => (hash_kmer (canonical_kmer w), 1))

/-- Model of `count_canonical_kmers` (src/main.rs lines 45-56).  The loop
bound `sequence.len() - k + 1` is computed on `usize` with no guard: when
`k > len` the subtraction underflows, which is a panic (abort), modelled
`none`.  When `k ≤ len` every slice `&sequence[i..i+k]` is in bounds and each
window bumps the hash of its canonical form by one. -/
def count_canonical_kmers (sequence : List Char) (k : Nat) :
    Option (List (Nat × Nat)) :=
  if k ≤ sequence.length then mergeList [] (seqIncs sequence k) else none

/-! ## Ingester (src/main.rs lines 66-92) -/

/-- One step per input line of the FASTA/FASTQ reader loop, carrying the
accumulated sequences, the current buffer and the `is_fastq` flag. -/
def parseSeqGo :
    List (List Char) → List (List Char) → List Char → Bool → List (List Char)
  | [], seqs, cur, _ => if cur.isEmpty then seqs else seqs ++ [cur]
  | line :: rest, seqs, cur, fq =>
    if line.head? = some '>' then
      parseSeqGo rest (if cur.isEmpty then seqs else seqs ++ [cur]) [] fq
    else if line.head? = some '@' then
      parseSeqGo rest (if cur.isEmpty then seqs else seqs ++ [cur]) [] true
    else if fq ∧ (line.head? = some '+' ∨ line.head? = some '#') then
      parseSeqGo rest seqs cur fq
    else
      parseSeqGo rest seqs (cur ++ line) fq

/-- Model of the line loop of `count_kmers_from_file_threaded`
(src/main.rs lines 66-92): build the list of sequences from the input lines.
`>` and `@` headers flush the non-empty buffer; `@` switches to FASTQ mode, in
which lines starting with `+` or `#` are skipped; every other line is appended
to the current buffer; the final non-empty buffer is flushed. -/
def parseSequences (lines : List (List Char)) : List (List Char) :=
  parseSeqGo lines [] [] false

/-! ## ParallelCounter sharding (src/main.rs lines 94-133) -/

/-- The slice `l[a..b]` for `a ≤ b ≤ l.length`. -/
def slice {α : Type} (l : List α) (a b : Nat) : List α :=
  (l.drop a).take (b - a)

/-- The shard slices produced by the loop `for _ in 0..n` with
`end = min(start + chunk_size, len)`, starting at index `start`. -/
def shardsFrom {α : Type} (l : List α) (chunkSize : Nat) : Nat → Nat → List (List α)
  | _, 0 => []
  | start, n + 1 =>
    slice l start (min (start + chunkSize) l.length) ::
      shardsFrom l chunkSize (min (start + chunkSize) l.length) n

/-- The `n` contiguous shards of the sequence list, with ceiling-division
chunk size `(len + n - 1) / n` (src/main.rs line 97). -/
def shards {α : Type} (l : List α) (n : Nat) : List (List α) :=
  shardsFrom l ((l.length + n - 1) / n) 0 n

/-- Model of one worker thread's body (src/main.rs lines 105-113): fold the
shard's sequences into the private local table, counting each sequence with
`count_canonical_kmers` and merging the per-sequence table. -/
def countShard : List (List Char) → Nat → List (Nat × Nat) → Option (List (Nat × Nat))
  | [], _, acc => some acc
  | s :: rest, k, acc =>
    match count_canonical_kmers s k with
    | none => none
    | some counts =>
      match mergeList acc counts with
      | none => none
      | some acc2 => countShard rest k acc2

/-- Model of the reduction (src/main.rs lines 100-127): each shard's local
table is merged into the shared global table.  The model fixes shard order;
the scheduling-order independence asserted by the spec is proved as a theorem
over permutations of the shard list. -/
def mergeShards : List (List (List Char)) → Nat → List (Nat × Nat) → Option (List (Nat × Nat))
  | [], _, g => some g
  | sh :: rest, k, g =>
    match countShard sh k [] with
    | none => none
    | some localT =>
      match mergeList g localT with
      | none => none
      | some g2 => mergeShards rest k g2

/-- Model of the sharding and counting part of `count_kmers_from_file_threaded`
(src/main.rs lines 94-133), taking the already-ingested sequence list.  With
`num_threads = 0` the chunk size expression `(len + num_threads - 1) /
num_threads` panics (underflow when `len = 0`, otherwise division by zero),
modelled `none`. -/
def count_kmers_threaded (seqs : List (List Char)) (k numThreads : Nat) :
    Option (List (Nat × Nat)) :=
  if numThreads = 0 then none
  else mergeShards (shards seqs numThreads) k []

/-- Model of the whole of `count_kmers_from_file_threaded`
(src/main.rs lines 58-133): ingest the lines, then shard and count. -/
def count_kmers_from_lines (lines : List (List Char)) (k numThreads : Nat) :
    Option (List (Nat × Nat)) :=
  count_kmers_threaded (parseSequences lines) k numThreads

/-! ## Histogram builder (src/histogram.rs) -/

/-- ASCII whitespace test, modelling the separator class of Rust's
`split_whitespace` for the ASCII inputs considered. -/
def isWs (c : Char) : Bool :=
  c = ' ' || c = '\t' || c = '\n' || c = '\r'

/-- Split a line on whitespace runs, dropping empty pieces, as
`split_whitespace` does. -/
def splitWsGo : List Char → List Char → List (List Char)
  | [], cur => if cur.isEmpty then [] else [cur.reverse]
  | c :: rest, cur =>
    if isWs c then
      (if cur.isEmpty then splitWsGo rest [] else cur.reverse :: splitWsGo rest [])
    else
      splitWsGo rest (c :: cur)

/-- Whitespace-separated pieces of a line. -/
def splitWs (line : List Char) : List (List Char) :=
  splitWsGo line []

/-- Digit-string parse of a `u32`, as `str::parse::<u32>` on the inputs
considered (digits only): `none` on an empty string, a non-digit character or
a value not fitting in 32 bits, each of which makes `parse` return an error
that `expect` turns into a panic. -/
def parseU32Go : List Char → Nat → Option Nat
  | [], acc => if acc < U32 then some acc else none
  | c :: rest, acc =>
    if c.isDigit then parseU32Go rest (acc * 10 + (c.toNat - 48)) else none

/-- Parse a `u32` from a non-empty digit string. -/
def parseU32 (s : List Char) : Option Nat :=
  if s.isEmpty then none else parseU32Go s 0

/-- Model of the line parse of `read_kmer_counts_threaded`
(src/histogram.rs lines 74-78): first whitespace-separated piece is the token,
second parses as `u32`; a missing piece or parse failure is a panic. -/
def parse_count_line (line : List Char) : Option (List Char × Nat) :=
  match splitWs line with
  | tok :: cnt :: _ => (parseU32 cnt).map (fun n => (tok, n))
  | _ => none

/-- Model of one histogram worker's body (src/histogram.rs lines 71-85): fold
the shard's lines into the private local table, bumping each parsed token by
its parsed count. -/
def readShard : List (List Char) → List (List Char × Nat) → Option (List (List Char × Nat))
  | [], acc => some acc
  | line :: rest, acc =>
    match parse_count_line line with
    | none => none
    | some (tok, c) =>
      match bump acc tok c with
      | none => none
      | some acc2 => readShard rest acc2

/-- Merge the histogram shards' local tables into the global table, in shard
order (src/histogram.rs lines 66-93). -/
def readMergeShards : List (List (List Char)) → List (List Char × Nat) → Option (List (List Char × Nat))
  | [], g => some g
  | sh :: rest, g =>
    match readShard sh [] with
    | none => none
    | some localT =>
      match mergeList g localT with
      | none => none
      | some g2 => readMergeShards rest g2

/-- Model of `read_kmer_counts_threaded` (src/histogram.rs lines 51-99),
taking the input lines.  As in the counter, `num_threads = 0` makes the chunk
size computation (src/histogram.rs line 63) panic, modelled `none`. -/
def read_kmer_counts_threaded (lines : List (List Char)) (numThreads : Nat) :
    Option (List (List Char × Nat)) :=
  if numThreads = 0 then none
  else readMergeShards (shards lines numThreads) []

/-- Model of `create_histogram` (src/histogram.rs lines 101-109): bump the
frequency of every stored count by one, iterating the table in order. -/
def create_histogram (kmerCounts : List (List Char × Nat)) :
    Option (List (Nat × Nat)) :=
  mergeList [] (kmerCounts.map (fun kv => (kv.2, 1)))

/-- Stable insertion into a list sorted ascending by the first component. -/
def insertByCount (p : Nat × Nat) : List (Nat × Nat) → List (Nat × Nat)
  | [] => [p]
  | q :: rest => if p.1 < q.1 then p :: q :: rest else q :: insertByCount p rest

/-- Model of `histogram.sort_by(|a, b| a.0.cmp(&b.0))`
(src/histogram.rs line 37): sort ascending by count. -/
def sortByCount (l : List (Nat × Nat)) : List (Nat × Nat) :=
  l.foldr insertByCount []

/-- The histogram pipeline of `main` (src/histogram.rs lines 33-37): threaded
read of the two-column lines, tally count frequencies, sort ascending by
count. -/
def histogramMain (lines : List (List Char)) (numThreads : Nat) :
    Option (List (Nat × Nat)) :=
  match read_kmer_counts_threaded lines numThreads with
  | none => none
  | some t =>
    match create_histogram t with
    | none => none
    | some h => some (sortByCount h)

/-- The per-window increment streams of a whole sequence list. -/
def allIncs (seqs : List (List Char)) (k : Nat) : List (Nat × Nat) :=
  (seqs.map (fun s => seqIncs s k)).flatten

/-- Two tables hold the same set of key-to-count pairs. -/
def tableEquiv {α : Type} (t1 t2 : List (α × Nat)) : Prop :=
  ∀ q c, (q, c) ∈ t1 ↔ (q, c) ∈ t2

/-- Two fallible table results agree: both panic, or both return tables with
the same set of key-to-count pairs. -/
def optTableEquiv {α : Type} : Option (List (α × Nat)) → Option (List (α × Nat)) → Prop
  | none, none => True
  | some t1, some t2 => tableEquiv t1 t2
  | _, _ => False

/-! ## Basic facts about the canonicalizer -/

theorem U32_pos : 0 < U32 := by
  decide

theorem complement_complement (c : Char) : complement (complement c) = c := by
  by_cases h1 : c = 'A'
  · subst h1; decide
  by_cases h2 : c = 'C'
  · subst h2; decide
  by_cases h3 : c = 'G'
  · subst h3; decide
  by_cases h4 : c = 'T'
  · subst h4; decide
  simp [complement, h1, h2, h3, h4]

theorem revcomp_revcomp (s : List Char) : revcomp (revcomp s) = s := by
  unfold revcomp
  rw [← List.map_reverse, List.reverse_reverse, List.map_map]
  have h : complement ∘ complement = id := funext complement_complement
  rw [h, List.map_id]

theorem strLt_irrefl : ∀ a : List Char, strLt a a = false
  | [] => rfl
  | a :: as => by
    simp only [strLt, lt_irrefl, if_false]
    exact strLt_irrefl as

theorem strLt_asymm : ∀ a b : List Char, strLt a b = true → strLt b a = false
  | [], [] => by simp [strLt]
  | [], _ :: _ => by simp [strLt]
  | _ :: _, [] => by simp [strLt]
  | a :: as, b :: bs => by
    intro h
    by_cases h1 : a < b
    · simp only [strLt, if_neg (lt_asymm h1), if_pos h1]
    by_cases h2 : b < a
    · simp only [strLt, if_neg h1, if_pos h2] at h
      exact Bool.noConfusion h
    simp only [strLt, if_neg h1, if_neg h2] at h
    simp only [strLt, if_neg h1, if_neg h2]
    exact strLt_asymm as bs h

theorem strLt_total_eq : ∀ a b : List Char,
    strLt a b = false → strLt b a = false → a = b
  | [], [] => fun _ _ => rfl
  | [], _ :: _ => by simp [strLt]
  | _ :: _, [] => by simp [strLt]
  | a :: as, b :: bs => by
    intro hab hba
    by_cases h1 : a < b
    · simp only [strLt, if_pos h1] at hab
      exact Bool.noConfusion hab
    by_cases h2 : b < a
    · simp only [strLt, if_neg h1, if_pos h2] at hba
      exact Bool.noConfusion hba
    have hc : a = b := le_antisymm (not_lt.mp h2) (not_lt.mp h1)
    subst hc
    simp only [strLt, if_neg h1] at hab hba
    rw [strLt_total_eq as bs hab hba]

/-- C6: canonicalization is orientation-symmetric: for every window, over any
characters (non-ACGT ones complement to themselves), the canonical form of the
reverse complement equals the canonical form of the window. -/
theorem canonical_kmer_orientation_symmetric (w : List Char) :
    canonical_kmer (revcomp w) = canonical_kmer w := by
  unfold canonical_kmer
  rw [revcomp_revcomp]
  cases h1 : strLt w (revcomp w) with
  | true =>
    rw [strLt_asymm w (revcomp w) h1]
    simp
  | false =>
    cases h2 : strLt (revcomp w) w with
    | true => simp
    | false =>
      simp only [Bool.false_eq_true, if_false]
      exact strLt_total_eq w (revcomp w) h1 h2

/-- C7: the canonical k-mer is the byte-wise lexicographically smaller of the
window and its reverse complement — it is one of the two and neither is
strictly below it — and when the two are equal (a palindrome) the returned
value is the forward window. -/
theorem canonical_kmer_is_min (w : List Char) :
    (canonical_kmer w = w ∨ canonical_kmer w = revcomp w) ∧
    strLt w (canonical_kmer w) = false ∧
    strLt (revcomp w) (canonical_kmer w) = false ∧
    (revcomp w = w → canonical_kmer w = w) := by
  unfold canonical_kmer
  cases h1 : strLt w (revcomp w) with
  | true =>
    refine ⟨Or.inl (by simp), ?_, ?_, ?_⟩
    · simp [strLt_irrefl]
    · simp [strLt_asymm w (revcomp w) h1]
    · intro hpal
      simp
  | false =>
    refine ⟨Or.inr (by simp), ?_, ?_, ?_⟩
    · simp [h1]
    · simp [strLt_irrefl]
    · intro hpal
      simp [hpal]

/-- C7 witness: at the palindrome `AT` (its reverse complement is itself) the
canonical k-mer is the forward window. -/
theorem canonical_kmer_is_min_witness :
    revcomp "AT".toList = "AT".toList ∧ canonical_kmer "AT".toList = "AT".toList :=
  ⟨by decide, (canonical_kmer_is_min "AT".toList).2.2.2 (by decide)⟩

/-! ## Decoder shape and the broken hash round-trip -/

/-- C10: for every key and every k, the decoded string has exactly k
characters, each one of A, C, G, T — so every token the reporting loop prints
is a length-k ACGT string, whatever bytes the counted window held. -/
theorem hash_to_kmer_length_alphabet (h k : Nat) :
    (hash_to_kmer h k).length = k ∧
    (hash_to_kmer h k).all (fun c => c = 'A' || c = 'C' || c = 'G' || c = 'T') = true := by
  induction k generalizing h with
  | zero => simp [hash_to_kmer]
  | succ k ih =>
    have hr : h % 4 = 0 ∨ h % 4 = 1 ∨ h % 4 = 2 ∨ h % 4 = 3 := by omega
    rcases hr with h0 | h0 | h0 | h0 <;>
      simp only [hash_to_kmer, h0, List.length_cons, List.all_cons] <;>
      exact ⟨by rw [(ih (h / 4)).1], by simp [(ih (h / 4)).2]⟩

/-- C3 (evidence of the code bug): a sequence of length 1 with k = 3 does not
yield zero windows — the unguarded `sequence.len() - k + 1` loop bound makes
the run abort (underflow panic in a checked build; in a release build the
wrapped bound makes the first slice `&sequence[0..3]` panic out of bounds). -/
theorem count_canonical_kmers_short_seq_panics :
    count_canonical_kmers "A".toList 3 = none := by
  decide

/-- C5 counterexample: decoding the counting key does not recover the k-mer:
for the k-mer `AC`, `hash_to_kmer (hash_kmer "AC") 2` is `CT`, not `AC` — the
counting key is a non-reversible hash, not the 2-bit packing the decoder
inverts. -/
theorem hash_roundtrip_fails :
    ¬ hash_to_kmer (hash_kmer "AC".toList) 2 = "AC".toList := by
  decide

/-- C5 amended: the decoder inverts the reversible 2-bit packed key of spec
§4.3 option (a): for every k-mer over A,C,G,T of length at most 32, decoding
the packed key recovers the k-mer.  The code's counting key (`hash_kmer`) is
not this packing, so decoding it does not recover what was counted. -/
theorem pack_kmer_roundtrip (w : List Char)
    (hw : ∀ c ∈ w, c = 'A' ∨ c = 'C' ∨ c = 'G' ∨ c = 'T')
    (hk : w.length ≤ 32) :
    hash_to_kmer (pack_kmer w) w.length = w := by
  induction w with
  | nil => rfl
  | cons c rest ih =>
    have hc := hw c (List.mem_cons_self c rest)
    have hrest : ∀ x ∈ rest, x = 'A' ∨ x = 'C' ∨ x = 'G' ∨ x = 'T' :=
      fun x hx => hw x (List.mem_cons_of_mem c hx)
    have hlen : rest.length ≤ 32 := by
      simp only [List.length_cons] at hk
      omega
    have hih := ih hrest hlen
    have hstep : ∀ b p n : Nat, b < 4 →
        hash_to_kmer (b + 4 * p) (n + 1) =
          (match b with | 0 => 'A' | 1 => 'C' | 2 => 'G' | _ => 'T') ::
            hash_to_kmer p n := by
      intro b p n hb
      have hm : (b + 4 * p) % 4 = b := by omega
      have hd : (b + 4 * p) / 4 = p := by omega
      simp only [hash_to_kmer, hm, hd]
    rcases hc with h0 | h0 | h0 | h0
    · subst h0
      have hb : pack_kmer ('A' :: rest) = 0 + 4 * pack_kmer rest := by
        simp [pack_kmer]
      rw [List.length_cons, hb, hstep 0 _ _ (by omega), hih]
    · subst h0
      have hb : pack_kmer ('C' :: rest) = 1 + 4 * pack_kmer rest := by
        simp [pack_kmer]
      rw [List.length_cons, hb, hstep 1 _ _ (by omega), hih]
    · subst h0
      have hb : pack_kmer ('G' :: rest) = 2 + 4 * pack_kmer rest := by
        simp [pack_kmer]
      rw [List.length_cons, hb, hstep 2 _ _ (by omega), hih]
    · subst h0
      have hb : pack_kmer ('T' :: rest) = 3 + 4 * pack_kmer rest := by
        simp [pack_kmer]
      rw [List.length_cons, hb, hstep 3 _ _ (by omega), hih]

/-- C5 amended witness: the packed key of `ACGT` decodes back to `ACGT`. -/
theorem pack_kmer_roundtrip_witness :
    hash_to_kmer (pack_kmer "ACGT".toList) 4 = "ACGT".toList :=
  pack_kmer_roundtrip "ACGT".toList (by decide) (by decide)

/-- C4 (evidence of the code bug): on the FASTQ record `@q1` / `AAAA` / `+` /
`IIII` with k = 2, the ingester appends the quality line to the sequence
(only lines starting with `+` or `#` are dropped), so the single ingested
sequence is `AAAAIIII` and counting yields 7 windows (`AA` three times, `AI`
once, `II` three times), not the 3 windows the spec promises. -/
theorem fastq_quality_line_appended :
    parseSequences ["@q1".toList, "AAAA".toList, "+".toList, "IIII".toList] =
      ["AAAAIIII".toList] ∧
    count_kmers_from_lines ["@q1".toList, "AAAA".toList, "+".toList, "IIII".toList] 2 1 =
      some [(hash_kmer "AA".toList, 3), (hash_kmer "AI".toList, 1), (hash_kmer "II".toList, 3)] ∧
    sumValues [(hash_kmer "AA".toList, 3), (hash_kmer "AI".toList, 1), (hash_kmer "II".toList, 3)] = 7 := by
  refine ⟨by decide, by decide, by decide⟩

/-- C8: on the six-line two-column input with distinct tokens and counts
1, 1, 2, 3, 3, 3, the histogram pipeline emits exactly (1, 2), (2, 1), (3, 3),
sorted ascending by count. -/
theorem histogram_counts_example :
    histogramMain ["k1 1".toList, "k2 1".toList, "k3 2".toList,
      "k4 3".toList, "k5 3".toList, "k6 3".toList] 1 =
      some [(1, 2), (2, 1), (3, 3)] := by
  decide

/-! ## Characterization of `bump` -/

theorem lookup_lt_U32 {α : Type} [DecidableEq α] (t : List (α × Nat)) (q : α)
    (hb : ∀ p ∈ t, p.2 < U32) : lookup t q < U32 := by
  induction t with
  | nil => exact U32_pos
  | cons p t ih =>
    obtain ⟨a, v⟩ := p
    simp only [lookup]
    by_cases h : a = q
    · simpa [h] using hb (a, v) (by simp)
    · simp only [if_neg h]
      exact ih (fun p hp => hb p (List.mem_cons_of_mem _ hp))

theorem bump_eq_none_iff {α : Type} [DecidableEq α] (t : List (α × Nat)) (key : α) (c : Nat) :
    bump t key c = none ↔ U32 ≤ lookup t key + c := by
  induction t with
  | nil =>
    by_cases h : c < U32 <;> simp [bump, lookup, h] <;> omega
  | cons p t ih =>
    obtain ⟨a, v⟩ := p
    by_cases h : a = key
    · by_cases h2 : v + c < U32 <;> simp [bump, lookup, h, h2] <;> omega
    · simp only [bump, lookup, if_neg h, Option.map_eq_none']
      exact ih

theorem bump_lookup {α : Type} [DecidableEq α] {t t2 : List (α × Nat)} {key : α} {c : Nat}
    (h : bump t key c = some t2) (q : α) :
    lookup t2 q = lookup t q + (if key = q then c else 0) := by
  induction t generalizing t2 with
  | nil =>
    simp only [bump] at h
    by_cases h1 : c < U32
    · rw [if_pos h1] at h
      simp only [Option.some.injEq] at h
      subst h
      by_cases hq : key = q <;> simp [lookup, hq]
    · rw [if_neg h1] at h
      exact absurd h (by simp)
  | cons p t ih =>
    obtain ⟨a, v⟩ := p
    simp only [bump] at h
    by_cases h1 : a = key
    · rw [if_pos h1] at h
      by_cases h2 : v + c < U32
      · rw [if_pos h2] at h
        simp only [Option.some.injEq] at h
        subst h
        by_cases hq : a = q
        · have hkq : key = q := (h1.symm).trans hq
          simp [lookup, hq, hkq]
        · have hkq : ¬ key = q := fun hk => hq (h1.trans hk)
          simp [lookup, hq, hkq]
      · rw [if_neg h2] at h
        exact absurd h (by simp)
    · rw [if_neg h1] at h
      cases hb : bump t key c with
      | none => rw [hb] at h; exact absurd h (by simp)
      | some t3 =>
        rw [hb] at h
        simp only [Option.map_some', Option.some.injEq] at h
        subst h
        by_cases hq : a = q
        · have hkq : ¬ key = q := fun hk => h1 (hq.trans hk.symm)
          simp [lookup, hq, hkq]
        · simp only [lookup, if_neg hq]
          exact ih hb

theorem bump_sumValues {α : Type} [DecidableEq α] {t t2 : List (α × Nat)} {key : α} {c : Nat}
    (h : bump t key c = some t2) : sumValues t2 = sumValues t + c := by
  induction t generalizing t2 with
  | nil =>
    simp only [bump] at h
    by_cases h1 : c < U32
    · rw [if_pos h1] at h
      simp only [Option.some.injEq] at h
      subst h
      simp [sumValues]
    · rw [if_neg h1] at h
      exact absurd h (by simp)
  | cons p t ih =>
    obtain ⟨a, v⟩ := p
    simp only [bump] at h
    by_cases h1 : a = key
    · rw [if_pos h1] at h
      by_cases h2 : v + c < U32
      · rw [if_pos h2] at h
        simp only [Option.some.injEq] at h
        subst h
        simp [sumValues]
        omega
      · rw [if_neg h2] at h
        exact absurd h (by simp)
    · rw [if_neg h1] at h
      cases hb : bump t key c with
      | none => rw [hb] at h; exact absurd h (by simp)
      | some t3 =>
        rw [hb] at h
        simp only [Option.map_some', Option.some.injEq] at h
        subst h
        simp only [sumValues, List.map_cons, List.sum_cons] at *
        rw [ih hb]
        omega

theorem bump_keysOf {α : Type} [DecidableEq α] {t t2 : List (α × Nat)} {key : α} {c : Nat}
    (h : bump t key c = some t2) :
    keysOf t2 = if key ∈ keysOf t then keysOf t else keysOf t ++ [key] := by
  induction t generalizing t2 with
  | nil =>
    simp only [bump] at h
    by_cases h1 : c < U32
    · rw [if_pos h1] at h
      simp only [Option.some.injEq] at h
      subst h
      simp [keysOf]
    · rw [if_neg h1] at h
      exact absurd h (by simp)
  | cons p t ih =>
    obtain ⟨a, v⟩ := p
    simp only [bump] at h
    by_cases h1 : a = key
    · rw [if_pos h1] at h
      by_cases h2 : v + c < U32
      · rw [if_pos h2] at h
        simp only [Option.some.injEq] at h
        subst h
        have hka : key = a := h1.symm
        simp [keysOf, hka]
      · rw [if_neg h2] at h
        exact absurd h (by simp)
    · rw [if_neg h1] at h
      cases hb : bump t key c with
      | none => rw [hb] at h; exact absurd h (by simp)
      | some t3 =>
        rw [hb] at h
        simp only [Option.map_some', Option.some.injEq] at h
        subst h
        have hne : ¬ key = a := fun hk => h1 hk.symm
        simp only [keysOf, List.map_cons] at *
        rw [ih hb]
        by_cases hmem : key ∈ t.map (·.1)
        · simp [hmem, hne]
        · simp [hmem, hne]

theorem bump_bounded {α : Type} [DecidableEq α] {t t2 : List (α × Nat)} {key : α} {c : Nat}
    (hb : ∀ p ∈ t, p.2 < U32) (h : bump t key c = some t2) :
    ∀ p ∈ t2, p.2 < U32 := by
  induction t generalizing t2 with
  | nil =>
    simp only [bump] at h
    by_cases h1 : c < U32
    · rw [if_pos h1] at h
      simp only [Option.some.injEq] at h
      subst h
      simpa using h1
    · rw [if_neg h1] at h
      exact absurd h (by simp)
  | cons p t ih =>
    obtain ⟨a, v⟩ := p
    simp only [bump] at h
    by_cases h1 : a = key
    · rw [if_pos h1] at h
      by_cases h2 : v + c < U32
      · rw [if_pos h2] at h
        simp only [Option.some.injEq] at h
        subst h
        intro p hp
        rcases List.mem_cons.mp hp with hp | hp
        · subst hp; exact h2
        · exact hb p (List.mem_cons_of_mem _ hp)
      · rw [if_neg h2] at h
        exact absurd h (by simp)
    · rw [if_neg h1] at h
      cases hbt : bump t key c with
      | none => rw [hbt] at h; exact absurd h (by simp)
      | some t3 =>
        rw [hbt] at h
        simp only [Option.map_some', Option.some.injEq] at h
        subst h
        intro p hp
        rcases List.mem_cons.mp hp with hp | hp
        · subst hp; exact hb (a, v) (by simp)
        · exact ih (fun p hp => hb p (List.mem_cons_of_mem _ hp)) hbt p hp

theorem bump_pos {α : Type} [DecidableEq α] {t t2 : List (α × Nat)} {key : α} {c : Nat}
    (hp0 : ∀ p ∈ t, 0 < p.2) (hc : 0 < c) (h : bump t key c = some t2) :
    ∀ p ∈ t2, 0 < p.2 := by
  induction t generalizing t2 with
  | nil =>
    simp only [bump] at h
    by_cases h1 : c < U32
    · rw [if_pos h1] at h
      simp only [Option.some.injEq] at h
      subst h
      simpa using hc
    · rw [if_neg h1] at h
      exact absurd h (by simp)
  | cons p t ih =>
    obtain ⟨a, v⟩ := p
    simp only [bump] at h
    by_cases h1 : a = key
    · rw [if_pos h1] at h
      by_cases h2 : v + c < U32
      · rw [if_pos h2] at h
        simp only [Option.some.injEq] at h
        subst h
        intro p hp
        rcases List.mem_cons.mp hp with hp | hp
        · subst hp; simpa using by omega
        · exact hp0 p (List.mem_cons_of_mem _ hp)
      · rw [if_neg h2] at h
        exact absurd h (by simp)
    · rw [if_neg h1] at h
      cases hbt : bump t key c with
      | none => rw [hbt] at h; exact absurd h (by simp)
      | some t3 =>
        rw [hbt] at h
        simp only [Option.map_some', Option.some.injEq] at h
        subst h
        intro p hp
        rcases List.mem_cons.mp hp with hp | hp
        · subst hp; exact hp0 (a, v) (by simp)
        · exact ih (fun p hp => hp0 p (List.mem_cons_of_mem _ hp)) hbt p hp

/-! ## Facts about `sumKey` -/

theorem sumKey_append {α : Type} [DecidableEq α] (L1 L2 : List (α × Nat)) (q : α) :
    sumKey (L1 ++ L2) q = sumKey L1 q + sumKey L2 q := by
  induction L1 with
  | nil => simp [sumKey]
  | cons p L1 ih =>
    obtain ⟨a, c⟩ := p
    simp only [List.cons_append, sumKey]
    have he : L1.append L2 = L1 ++ L2 := rfl
    rw [he, ih, Nat.add_assoc]

theorem sumKey_zero_of_not_mem {α : Type} [DecidableEq α] {L : List (α × Nat)} {q : α}
    (h : q ∉ keysOf L) : sumKey L q = 0 := by
  induction L with
  | nil => rfl
  | cons p L ih =>
    obtain ⟨a, c⟩ := p
    simp only [keysOf, List.map_cons, List.mem_cons] at h
    push_neg at h
    obtain ⟨h1, h2⟩ := h
    have ha : ¬ a = q := fun hh => h1 hh.symm
    simp only [sumKey, if_neg ha]
    simpa using ih h2

theorem sumKey_eq_lookup {α : Type} [DecidableEq α] {t : List (α × Nat)}
    (hnd : (keysOf t).Nodup) (q : α) : sumKey t q = lookup t q := by
  induction t with
  | nil => rfl
  | cons p t ih =>
    obtain ⟨a, v⟩ := p
    simp only [keysOf, List.map_cons, List.nodup_cons] at hnd
    obtain ⟨hna, hnd2⟩ := hnd
    simp only [sumKey, lookup]
    by_cases ha : a = q
    · subst ha
      rw [sumKey_zero_of_not_mem hna]
      simp
    · simp only [if_neg ha, Nat.zero_add]
      exact ih hnd2

theorem sumKey_eq_map_sum {α : Type} [DecidableEq α] (L : List (α × Nat)) (q : α) :
    sumKey L q = (L.map (fun p => if p.1 = q then p.2 else 0)).sum := by
  induction L with
  | nil => rfl
  | cons p L ih =>
    obtain ⟨a, c⟩ := p
    simp only [sumKey, List.map_cons, List.sum_cons]
    rw [ih]

theorem sumKey_perm {α : Type} [DecidableEq α] {L1 L2 : List (α × Nat)}
    (h : L1.Perm L2) (q : α) : sumKey L1 q = sumKey L2 q := by
  rw [sumKey_eq_map_sum, sumKey_eq_map_sum]
  exact (h.map _).sum_eq

/-! ## Characterization of `mergeList` -/

theorem mergeList_lookup {α : Type} [DecidableEq α] {L : List (α × Nat)} :
    ∀ {t t2 : List (α × Nat)}, mergeList t L = some t2 →
      ∀ q, lookup t2 q = lookup t q + sumKey L q := by
  induction L with
  | nil =>
    intro t t2 h q
    simp only [mergeList, Option.some.injEq] at h
    subst h
    simp [sumKey]
  | cons p L ih =>
    obtain ⟨key, c⟩ := p
    intro t t2 h q
    cases hb : bump t key c with
    | none => simp [mergeList, hb] at h
    | some t3 =>
      simp only [mergeList, hb] at h
      rw [ih h q, bump_lookup hb q]
      simp only [sumKey]
      by_cases hk : key = q <;> simp [hk] <;> omega

theorem mergeList_eq_none_iff {α : Type} [DecidableEq α] {L : List (α × Nat)} :
    ∀ {t : List (α × Nat)}, (∀ p ∈ t, p.2 < U32) →
      (mergeList t L = none ↔ ∃ q, U32 ≤ lookup t q + sumKey L q) := by
  induction L with
  | nil =>
    intro t hb
    simp only [mergeList]
    constructor
    · intro h
      exact absurd h (by simp)
    · rintro ⟨q, hq⟩
      have hlt := lookup_lt_U32 t q hb
      simp only [sumKey] at hq
      exfalso
      omega
  | cons p L ih =>
    obtain ⟨key, c⟩ := p
    intro t hb
    cases hbc : bump t key c with
    | none =>
      have hK := (bump_eq_none_iff t key c).mp hbc
      have hss : sumKey ((key, c) :: L) key = c + sumKey L key := by
        simp [sumKey]
      simp only [mergeList, hbc]
      constructor
      · intro _
        refine ⟨key, ?_⟩
        rw [hss]
        omega
      · intro _
        trivial
    | some t3 =>
      have hb3 := bump_bounded hb hbc
      simp only [mergeList, hbc]
      rw [ih hb3]
      constructor
      · rintro ⟨q, hq⟩
        refine ⟨q, ?_⟩
        rw [bump_lookup hbc q] at hq
        simp only [sumKey]
        by_cases hk : key = q
        · simp only [hk, if_pos rfl] at *
          omega
        · simp only [if_neg hk] at *
          omega
      · rintro ⟨q, hq⟩
        refine ⟨q, ?_⟩
        rw [bump_lookup hbc q]
        simp only [sumKey] at hq
        by_cases hk : key = q
        · simp only [hk, if_pos rfl] at *
          omega
        · simp only [if_neg hk] at *
          omega

theorem mergeList_sumValues {α : Type} [DecidableEq α] {L : List (α × Nat)} :
    ∀ {t t2 : List (α × Nat)}, mergeList t L = some t2 →
      sumValues t2 = sumValues t + (L.map (·.2)).sum := by
  induction L with
  | nil =>
    intro t t2 h
    simp only [mergeList, Option.some.injEq] at h
    subst h
    simp
  | cons p L ih =>
    obtain ⟨key, c⟩ := p
    intro t t2 h
    cases hb : bump t key c with
    | none => simp [mergeList, hb] at h
    | some t3 =>
      simp only [mergeList, hb] at h
      rw [ih h, bump_sumValues hb]
      simp only [List.map_cons, List.sum_cons]
      omega

theorem mergeList_bounded {α : Type} [DecidableEq α] {L : List (α × Nat)} :
    ∀ {t t2 : List (α × Nat)}, (∀ p ∈ t, p.2 < U32) → mergeList t L = some t2 →
      ∀ p ∈ t2, p.2 < U32 := by
  induction L with
  | nil =>
    intro t t2 hb h
    simp only [mergeList, Option.some.injEq] at h
    subst h
    exact hb
  | cons p L ih =>
    obtain ⟨key, c⟩ := p
    intro t t2 hb h
    cases hbc : bump t key c with
    | none => simp [mergeList, hbc] at h
    | some t3 =>
      simp only [mergeList, hbc] at h
      exact ih (bump_bounded hb hbc) h

theorem mergeList_pos {α : Type} [DecidableEq α] {L : List (α × Nat)} :
    ∀ {t t2 : List (α × Nat)}, (∀ p ∈ t, 0 < p.2) → (∀ p ∈ L, 0 < p.2) →
      mergeList t L = some t2 → ∀ p ∈ t2, 0 < p.2 := by
  induction L with
  | nil =>
    intro t t2 hp _ h
    simp only [mergeList, Option.some.injEq] at h
    subst h
    exact hp
  | cons p L ih =>
    obtain ⟨key, c⟩ := p
    intro t t2 hp hL h
    cases hbc : bump t key c with
    | none => simp [mergeList, hbc] at h
    | some t3 =>
      simp only [mergeList, hbc] at h
      have hc : 0 < c := by simpa using hL (key, c) (by simp)
      exact ih (bump_pos hp hc hbc) (fun p hp2 => hL p (List.mem_cons_of_mem _ hp2)) h

theorem bump_nodup {α : Type} [DecidableEq α] {t t2 : List (α × Nat)} {key : α} {c : Nat}
    (hnd : (keysOf t).Nodup) (h : bump t key c = some t2) : (keysOf t2).Nodup := by
  rw [bump_keysOf h]
  by_cases hmem : key ∈ keysOf t
  · simpa [hmem] using hnd
  · rw [if_neg hmem, List.nodup_append]
    refine ⟨hnd, List.nodup_singleton key, ?_⟩
    intro a ha
    simp only [List.mem_singleton]
    intro hk
    exact hmem (hk ▸ ha)

theorem mergeList_nodup {α : Type} [DecidableEq α] {L : List (α × Nat)} :
    ∀ {t t2 : List (α × Nat)}, (keysOf t).Nodup → mergeList t L = some t2 →
      (keysOf t2).Nodup := by
  induction L with
  | nil =>
    intro t t2 hnd h
    simp only [mergeList, Option.some.injEq] at h
    subst h
    exact hnd
  | cons p L ih =>
    obtain ⟨key, c⟩ := p
    intro t t2 hnd h
    cases hbc : bump t key c with
    | none => simp [mergeList, hbc] at h
    | some t3 =>
      simp only [mergeList, hbc] at h
      exact ih (bump_nodup hnd hbc) h

theorem mem_table_iff {α : Type} [DecidableEq α] {t : List (α × Nat)} (q : α) (c : Nat) :
    (keysOf t).Nodup → (∀ p ∈ t, 0 < p.2) →
      ((q, c) ∈ t ↔ 0 < c ∧ lookup t q = c) := by
  induction t with
  | nil =>
    intro _ _
    simp only [List.not_mem_nil, lookup, false_iff]
    omega
  | cons p t ih =>
    obtain ⟨a, v⟩ := p
    intro hnd hpos
    simp only [keysOf, List.map_cons, List.nodup_cons] at hnd
    obtain ⟨hna, hnd2⟩ := hnd
    have hpos2 : ∀ p ∈ t, 0 < p.2 := fun p hp => hpos p (List.mem_cons_of_mem _ hp)
    have hva : 0 < v := by simpa using hpos (a, v) (by simp)
    constructor
    · intro hmem
      rcases List.mem_cons.mp hmem with hmem | hmem
      · simp only [Prod.mk.injEq] at hmem
        obtain ⟨h1, h2⟩ := hmem
        subst h1
        subst h2
        simp [lookup, hva]
      · have hq : q ∈ keysOf t := List.mem_map_of_mem (·.1) hmem
        have hqa : ¬ a = q := fun hh => hna (hh ▸ hq)
        simp only [lookup, if_neg hqa]
        exact ((ih hnd2 hpos2).mp hmem)
    · rintro ⟨hc, hl⟩
      simp only [lookup] at hl
      by_cases ha : a = q
      · rw [if_pos ha] at hl
        subst ha
        subst hl
        exact List.mem_cons_self _ _
      · rw [if_neg ha] at hl
        exact List.mem_cons_of_mem _ ((ih hnd2 hpos2).mpr ⟨hc, hl⟩)

/-! ## Characterization of per-sequence counting -/

theorem sum_map_one {β : Type} (l : List β) : (l.map (fun _ => (1 : Nat))).sum = l.length := by
  induction l with
  | nil => rfl
  | cons b l ih => simp [ih, Nat.add_comm]

theorem windows_length (s : List Char) (k : Nat) :
    (windows s k).length = s.length - k + 1 := by
  simp [windows]

theorem seqIncs_pos (s : List Char) (k : Nat) : ∀ p ∈ seqIncs s k, 0 < p.2 := by
  intro p hp
  simp only [seqIncs, List.mem_map] at hp
  obtain ⟨w, _, rfl⟩ := hp
  simp

theorem count_canonical_kmers_eq_none_iff (s : List Char) (k : Nat) :
    count_canonical_kmers s k = none ↔
      s.length < k ∨ ∃ q, U32 ≤ sumKey (seqIncs s k) q := by
  unfold count_canonical_kmers
  by_cases hk : k ≤ s.length
  · rw [if_pos hk, mergeList_eq_none_iff (by simp)]
    constructor
    · rintro ⟨q, hq⟩
      refine Or.inr ⟨q, ?_⟩
      simpa [lookup] using hq
    · rintro (h | ⟨q, hq⟩)
      · exfalso
        omega
      · exact ⟨q, by simpa [lookup] using hq⟩
  · rw [if_neg hk]
    constructor
    · intro _
      exact Or.inl (by omega)
    · intro _
      trivial

theorem count_canonical_kmers_lookup {s : List Char} {k : Nat} {t : List (Nat × Nat)}
    (h : count_canonical_kmers s k = some t) :
    k ≤ s.length ∧ ∀ q, lookup t q = sumKey (seqIncs s k) q := by
  unfold count_canonical_kmers at h
  by_cases hk : k ≤ s.length
  · rw [if_pos hk] at h
    exact ⟨hk, fun q => by simpa [lookup] using mergeList_lookup h q⟩
  · rw [if_neg hk] at h
    exact absurd h (by simp)

theorem count_canonical_kmers_inv {s : List Char} {k : Nat} {t : List (Nat × Nat)}
    (h : count_canonical_kmers s k = some t) :
    (∀ p ∈ t, p.2 < U32) ∧ (∀ p ∈ t, 0 < p.2) ∧ (keysOf t).Nodup := by
  unfold count_canonical_kmers at h
  by_cases hk : k ≤ s.length
  · rw [if_pos hk] at h
    exact ⟨mergeList_bounded (by simp) h,
      mergeList_pos (by simp) (seqIncs_pos s k) h,
      mergeList_nodup (by simp [keysOf]) h⟩
  · rw [if_neg hk] at h
    exact absurd h (by simp)

theorem count_canonical_kmers_sumValues {s : List Char} {k : Nat} {t : List (Nat × Nat)}
    (h : count_canonical_kmers s k = some t) :
    sumValues t = s.length - k + 1 := by
  unfold count_canonical_kmers at h
  by_cases hk : k ≤ s.length
  · rw [if_pos hk] at h
    have hmap : ((seqIncs s k).map (·.2)) = (windows s k).map (fun _ => (1 : Nat)) := by
      simp only [seqIncs, List.map_map]
      exact List.map_congr_left (fun w _ => rfl)
    have hm := mergeList_sumValues h
    rw [hmap, sum_map_one, windows_length] at hm
    simpa [sumValues] using hm
  · rw [if_neg hk] at h
    exact absurd h (by simp)

/-! ## Characterization of a worker shard -/

theorem allIncs_cons (s : List Char) (sh : List (List Char)) (k : Nat) :
    allIncs (s :: sh) k = seqIncs s k ++ allIncs sh k := by
  simp [allIncs]

theorem allIncs_append (l1 l2 : List (List Char)) (k : Nat) :
    allIncs (l1 ++ l2) k = allIncs l1 k ++ allIncs l2 k := by
  simp [allIncs]

theorem countShard_eq_none_iff {k : Nat} :
    ∀ (sh : List (List Char)) {acc : List (Nat × Nat)},
    (∀ p ∈ acc, p.2 < U32) →
    (countShard sh k acc = none ↔
      (∃ s ∈ sh, s.length < k) ∨ ∃ q, U32 ≤ lookup acc q + sumKey (allIncs sh k) q) := by
  intro sh
  induction sh with
  | nil =>
    intro acc hb
    constructor
    · intro h
      exact absurd h (by simp [countShard])
    · rintro (⟨s, hs, _⟩ | ⟨q, hq⟩)
      · exact absurd hs (List.not_mem_nil s)
      · have hlt := lookup_lt_U32 acc q hb
        simp only [allIncs, List.map_nil, List.flatten_nil, sumKey] at hq
        exfalso
        omega
  | cons s sh ih =>
    intro acc hb
    cases hc : count_canonical_kmers s k with
    | none =>
      have hcc := (count_canonical_kmers_eq_none_iff s k).mp hc
      simp only [countShard, hc]
      constructor
      · intro _
        rcases hcc with hlen | ⟨q, hq⟩
        · exact Or.inl ⟨s, by simp, hlen⟩
        · refine Or.inr ⟨q, ?_⟩
          rw [allIncs_cons, sumKey_append]
          omega
      · intro _
        trivial
    | some ts =>
      obtain ⟨hks, hlk⟩ := count_canonical_kmers_lookup hc
      obtain ⟨hbts, hpts, hndts⟩ := count_canonical_kmers_inv hc
      have hts : ∀ q, sumKey ts q = sumKey (seqIncs s k) q := by
        intro q
        rw [sumKey_eq_lookup hndts q, hlk q]
      simp only [countShard, hc]
      cases hm : mergeList acc ts with
      | none =>
        have hmn := (mergeList_eq_none_iff hb).mp hm
        constructor
        · intro _
          obtain ⟨q, hq⟩ := hmn
          refine Or.inr ⟨q, ?_⟩
          rw [allIncs_cons, sumKey_append]
          rw [hts q] at hq
          omega
        · intro _
          trivial
      | some acc2 =>
        have hb2 := mergeList_bounded hb hm
        rw [ih hb2]
        have hlk2 : ∀ q, lookup acc2 q = lookup acc q + sumKey (seqIncs s k) q := by
          intro q
          rw [mergeList_lookup hm q, hts q]
        constructor
        · rintro (⟨s2, hs2, hlen⟩ | ⟨q, hq⟩)
          · exact Or.inl ⟨s2, List.mem_cons_of_mem _ hs2, hlen⟩
          · refine Or.inr ⟨q, ?_⟩
            rw [allIncs_cons, sumKey_append]
            rw [hlk2 q] at hq
            omega
        · rintro (⟨s2, hs2, hlen⟩ | ⟨q, hq⟩)
          · rcases List.mem_cons.mp hs2 with heq | hs2
            · exfalso
              rw [heq] at hlen
              omega
            · exact Or.inl ⟨s2, hs2, hlen⟩
          · refine Or.inr ⟨q, ?_⟩
            rw [hlk2 q]
            rw [allIncs_cons, sumKey_append] at hq
            omega

theorem countShard_lookup {k : Nat} :
    ∀ (sh : List (List Char)) {acc t : List (Nat × Nat)},
    countShard sh k acc = some t →
    ∀ q, lookup t q = lookup acc q + sumKey (allIncs sh k) q := by
  intro sh
  induction sh with
  | nil =>
    intro acc t h q
    simp only [countShard, Option.some.injEq] at h
    subst h
    simp [allIncs, sumKey]
  | cons s sh ih =>
    intro acc t h q
    cases hc : count_canonical_kmers s k with
    | none => simp [countShard, hc] at h
    | some ts =>
      obtain ⟨hks, hlk⟩ := count_canonical_kmers_lookup hc
      obtain ⟨hbts, hpts, hndts⟩ := count_canonical_kmers_inv hc
      simp only [countShard, hc] at h
      cases hm : mergeList acc ts with
      | none => rw [hm] at h; simp at h
      | some acc2 =>
        rw [hm] at h
        rw [ih h q, mergeList_lookup hm q, sumKey_eq_lookup hndts q, hlk q,
          allIncs_cons, sumKey_append]
        omega

theorem countShard_inv {k : Nat} :
    ∀ (sh : List (List Char)) {acc t : List (Nat × Nat)},
    (∀ p ∈ acc, p.2 < U32) → (∀ p ∈ acc, 0 < p.2) → (keysOf acc).Nodup →
    countShard sh k acc = some t →
    (∀ p ∈ t, p.2 < U32) ∧ (∀ p ∈ t, 0 < p.2) ∧ (keysOf t).Nodup := by
  intro sh
  induction sh with
  | nil =>
    intro acc t hb hp hnd h
    simp only [countShard, Option.some.injEq] at h
    subst h
    exact ⟨hb, hp, hnd⟩
  | cons s sh ih =>
    intro acc t hb hp hnd h
    cases hc : count_canonical_kmers s k with
    | none => simp [countShard, hc] at h
    | some ts =>
      obtain ⟨hbts, hpts, hndts⟩ := count_canonical_kmers_inv hc
      simp only [countShard, hc] at h
      cases hm : mergeList acc ts with
      | none => rw [hm] at h; simp at h
      | some acc2 =>
        rw [hm] at h
        exact ih (mergeList_bounded hb hm) (mergeList_pos hp hpts hm)
          (mergeList_nodup hnd hm) h

theorem countShard_sumValues {k : Nat} :
    ∀ (sh : List (List Char)) {acc t : List (Nat × Nat)},
    countShard sh k acc = some t →
    sumValues t = sumValues acc + (sh.map (fun s => s.length - k + 1)).sum := by
  intro sh
  induction sh with
  | nil =>
    intro acc t h
    simp only [countShard, Option.some.injEq] at h
    subst h
    simp
  | cons s sh ih =>
    intro acc t h
    cases hc : count_canonical_kmers s k with
    | none => simp [countShard, hc] at h
    | some ts =>
      simp only [countShard, hc] at h
      cases hm : mergeList acc ts with
      | none => rw [hm] at h; simp at h
      | some acc2 =>
        rw [hm] at h
        have h1 := mergeList_sumValues hm
        have h2 := count_canonical_kmers_sumValues hc
        rw [ih h, h1]
        simp only [List.map_cons, List.sum_cons]
        have h3 : (ts.map (·.2)).sum = sumValues ts := rfl
        rw [h3, h2]
        omega

theorem countShard_short_of_some {k : Nat} :
    ∀ (sh : List (List Char)) {acc t : List (Nat × Nat)},
    countShard sh k acc = some t → ∀ s ∈ sh, k ≤ s.length := by
  intro sh
  induction sh with
  | nil =>
    intro acc t _ s hs
    exact absurd hs (List.not_mem_nil s)
  | cons s0 sh ih =>
    intro acc t h s hs
    cases hc : count_canonical_kmers s0 k with
    | none => simp [countShard, hc] at h
    | some ts =>
      simp only [countShard, hc] at h
      cases hm : mergeList acc ts with
      | none => rw [hm] at h; simp at h
      | some acc2 =>
        rw [hm] at h
        rcases List.mem_cons.mp hs with heq | hs2
        · rw [heq]
          exact (count_canonical_kmers_lookup hc).1
        · exact ih h s hs2

/-! ## Characterization of the shared-table reduction -/

theorem mergeShards_eq_none_iff {k : Nat} :
    ∀ (shl : List (List (List Char))) {g : List (Nat × Nat)},
    (∀ p ∈ g, p.2 < U32) →
    (mergeShards shl k g = none ↔
      (∃ s ∈ shl.flatten, s.length < k) ∨
        ∃ q, U32 ≤ lookup g q + sumKey (allIncs shl.flatten k) q) := by
  intro shl
  induction shl with
  | nil =>
    intro g hb
    constructor
    · intro h
      exact absurd h (by simp [mergeShards])
    · rintro (⟨s, hs, _⟩ | ⟨q, hq⟩)
      · exact absurd hs (by simp)
      · have hlt := lookup_lt_U32 g q hb
        simp only [List.flatten_nil, allIncs, List.map_nil, sumKey] at hq
        exfalso
        omega
  | cons sh shl ih =>
    intro g hb
    have hflat : (sh :: shl).flatten = sh ++ shl.flatten := by simp
    cases hs : countShard sh k [] with
    | none =>
      have hcc := (countShard_eq_none_iff sh (by simp)).mp hs
      simp only [mergeShards, hs]
      constructor
      · intro _
        rcases hcc with ⟨s, hsm, hlen⟩ | ⟨q, hq⟩
        · exact Or.inl ⟨s, by simp [hsm], hlen⟩
        · refine Or.inr ⟨q, ?_⟩
          rw [hflat, allIncs_append, sumKey_append]
          simp only [lookup] at hq
          omega
      · intro _
        trivial
    | some localT =>
      have hloc : ∀ q, lookup localT q = sumKey (allIncs sh k) q := by
        intro q
        simpa [lookup] using countShard_lookup sh hs q
      obtain ⟨hbl, hpl, hndl⟩ :=
        countShard_inv sh (by simp) (by simp) (by simp [keysOf]) hs
      have hsum : ∀ q, sumKey localT q = sumKey (allIncs sh k) q := by
        intro q
        rw [sumKey_eq_lookup hndl q, hloc q]
      simp only [mergeShards, hs]
      cases hm : mergeList g localT with
      | none =>
        have hmn := (mergeList_eq_none_iff hb).mp hm
        constructor
        · intro _
          obtain ⟨q, hq⟩ := hmn
          refine Or.inr ⟨q, ?_⟩
          rw [hflat, allIncs_append, sumKey_append]
          rw [hsum q] at hq
          omega
        · intro _
          trivial
      | some g2 =>
        have hb2 := mergeList_bounded hb hm
        rw [ih hb2]
        have hlk2 : ∀ q, lookup g2 q = lookup g q + sumKey (allIncs sh k) q := by
          intro q
          rw [mergeList_lookup hm q, hsum q]
        constructor
        · rintro (⟨s2, hs2, hlen⟩ | ⟨q, hq⟩)
          · exact Or.inl ⟨s2, by simp [hs2], hlen⟩
          · refine Or.inr ⟨q, ?_⟩
            rw [hflat, allIncs_append, sumKey_append]
            rw [hlk2 q] at hq
            omega
        · rintro (⟨s2, hs2, hlen⟩ | ⟨q, hq⟩)
          · rw [hflat] at hs2
            rcases List.mem_append.mp hs2 with hs2 | hs2
            · exfalso
              have := countShard_short_of_some sh hs s2 hs2
              omega
            · exact Or.inl ⟨s2, hs2, hlen⟩
          · refine Or.inr ⟨q, ?_⟩
            rw [hlk2 q]
            rw [hflat, allIncs_append, sumKey_append] at hq
            omega

theorem mergeShards_lookup {k : Nat} :
    ∀ (shl : List (List (List Char))) {g t : List (Nat × Nat)},
    mergeShards shl k g = some t →
    ∀ q, lookup t q = lookup g q + sumKey (allIncs shl.flatten k) q := by
  intro shl
  induction shl with
  | nil =>
    intro g t h q
    simp only [mergeShards, Option.some.injEq] at h
    subst h
    simp [allIncs, sumKey]
  | cons sh shl ih =>
    intro g t h q
    cases hs : countShard sh k [] with
    | none => simp [mergeShards, hs] at h
    | some localT =>
      have hloc : ∀ q, lookup localT q = sumKey (allIncs sh k) q := by
        intro q
        simpa [lookup] using countShard_lookup sh hs q
      obtain ⟨hbl, hpl, hndl⟩ :=
        countShard_inv sh (by simp) (by simp) (by simp [keysOf]) hs
      simp only [mergeShards, hs] at h
      cases hm : mergeList g localT with
      | none => rw [hm] at h; simp at h
      | some g2 =>
        rw [hm] at h
        have hflat : (sh :: shl).flatten = sh ++ shl.flatten := by simp
        rw [ih h q, mergeList_lookup hm q, sumKey_eq_lookup hndl q, hloc q,
          hflat, allIncs_append, sumKey_append]
        omega

theorem mergeShards_inv {k : Nat} :
    ∀ (shl : List (List (List Char))) {g t : List (Nat × Nat)},
    (∀ p ∈ g, p.2 < U32) → (∀ p ∈ g, 0 < p.2) → (keysOf g).Nodup →
    mergeShards shl k g = some t →
    (∀ p ∈ t, p.2 < U32) ∧ (∀ p ∈ t, 0 < p.2) ∧ (keysOf t).Nodup := by
  intro shl
  induction shl with
  | nil =>
    intro g t hb hp hnd h
    simp only [mergeShards, Option.some.injEq] at h
    subst h
    exact ⟨hb, hp, hnd⟩
  | cons sh shl ih =>
    intro g t hb hp hnd h
    cases hs : countShard sh k [] with
    | none => simp [mergeShards, hs] at h
    | some localT =>
      obtain ⟨hbl, hpl, hndl⟩ :=
        countShard_inv sh (by simp) (by simp) (by simp [keysOf]) hs
      simp only [mergeShards, hs] at h
      cases hm : mergeList g localT with
      | none => rw [hm] at h; simp at h
      | some g2 =>
        rw [hm] at h
        exact ih (mergeList_bounded hb hm) (mergeList_pos hp hpl hm)
          (mergeList_nodup hnd hm) h

theorem mergeShards_sumValues {k : Nat} :
    ∀ (shl : List (List (List Char))) {g t : List (Nat × Nat)},
    mergeShards shl k g = some t →
    sumValues t = sumValues g + (shl.flatten.map (fun s => s.length - k + 1)).sum := by
  intro shl
  induction shl with
  | nil =>
    intro g t h
    simp only [mergeShards, Option.some.injEq] at h
    subst h
    simp
  | cons sh shl ih =>
    intro g t h
    cases hs : countShard sh k [] with
    | none => simp [mergeShards, hs] at h
    | some localT =>
      have hsl : sumValues localT = (sh.map (fun s => s.length - k + 1)).sum := by
        simpa [sumValues] using countShard_sumValues sh hs
      simp only [mergeShards, hs] at h
      cases hm : mergeList g localT with
      | none => rw [hm] at h; simp at h
      | some g2 =>
        rw [hm] at h
        have h1 := mergeList_sumValues hm
        have h3 : (localT.map (·.2)).sum = sumValues localT := rfl
        rw [ih h, h1, h3, hsl]
        simp only [List.flatten_cons, List.map_append, List.sum_append]
        omega

theorem mergeShards_short_of_some {k : Nat} :
    ∀ (shl : List (List (List Char))) {g t : List (Nat × Nat)},
    mergeShards shl k g = some t → ∀ s ∈ shl.flatten, k ≤ s.length := by
  intro shl
  induction shl with
  | nil =>
    intro g t _ s hs
    simp at hs
  | cons sh shl ih =>
    intro g t h s hs
    cases hcs : countShard sh k [] with
    | none => simp [mergeShards, hcs] at h
    | some localT =>
      simp only [mergeShards, hcs] at h
      cases hm : mergeList g localT with
      | none => rw [hm] at h; simp at h
      | some g2 =>
        rw [hm] at h
        simp only [List.flatten_cons, List.mem_append] at hs
        rcases hs with hs | hs
        · exact countShard_short_of_some sh hcs s hs
        · exact ih h s hs

/-! ## The shards partition the input list -/

theorem slice_append {α : Type} (l : List α) (a b c : Nat) (h1 : a ≤ b) (h2 : b ≤ c) :
    slice l a b ++ slice l b c = slice l a c := by
  unfold slice
  have hd : l.drop b = (l.drop a).drop (b - a) := by
    rw [List.drop_drop]
    congr 1
    omega
  rw [hd, ← List.take_add]
  congr 1
  omega

theorem shardsFrom_flatten {α : Type} (l : List α) (c : Nat) :
    ∀ (n start : Nat), start ≤ l.length →
    (shardsFrom l c start n).flatten = slice l start (min (start + n * c) l.length) := by
  intro n
  induction n with
  | zero =>
    intro start hs
    simp only [shardsFrom, List.flatten_nil]
    have hmin : min (start + 0 * c) l.length = start := by omega
    rw [hmin]
    unfold slice
    simp
  | succ n ih =>
    intro start hs
    simp only [shardsFrom, List.flatten_cons]
    have he1 : min (start + c) l.length ≤ l.length := by omega
    rw [ih (min (start + c) l.length) he1]
    have h1 : start ≤ min (start + c) l.length := by omega
    have h2 : min (start + c) l.length ≤
        min (min (start + c) l.length + n * c) l.length := by omega
    rw [slice_append l start (min (start + c) l.length) _ h1 h2]
    congr 1
    have hm : (n + 1) * c = n * c + c := by ring
    rw [hm]
    generalize n * c = m
    omega

theorem shards_flatten {α : Type} (l : List α) (n : Nat) (hn : 1 ≤ n) :
    (shards l n).flatten = l := by
  unfold shards
  rw [shardsFrom_flatten l _ n 0 (by omega)]
  have hq := Nat.div_add_mod (l.length + n - 1) n
  have hr : (l.length + n - 1) % n < n := Nat.mod_lt _ (by omega)
  have hnc : l.length ≤ n * ((l.length + n - 1) / n) := by
    generalize hm : n * ((l.length + n - 1) / n) = m at hq
    omega
  have hmin : min (0 + n * ((l.length + n - 1) / n)) l.length = l.length := by
    omega
  rw [hmin]
  unfold slice
  simp

/-! ## Characterization of the threaded counter -/

theorem count_kmers_threaded_eq_none_iff (seqs : List (List Char)) (k N : Nat)
    (hN : 1 ≤ N) :
    count_kmers_threaded seqs k N = none ↔
      (∃ s ∈ seqs, s.length < k) ∨ ∃ q, U32 ≤ sumKey (allIncs seqs k) q := by
  unfold count_kmers_threaded
  rw [if_neg (by omega), mergeShards_eq_none_iff _ (by simp),
    shards_flatten seqs N hN]
  simp [lookup]

theorem count_kmers_threaded_lookup {seqs : List (List Char)} {k N : Nat}
    {t : List (Nat × Nat)} (h : count_kmers_threaded seqs k N = some t) :
    ∀ q, lookup t q = sumKey (allIncs seqs k) q := by
  unfold count_kmers_threaded at h
  by_cases hN : N = 0
  · rw [if_pos hN] at h
    exact absurd h (by simp)
  · rw [if_neg hN] at h
    intro q
    have h2 := mergeShards_lookup _ h q
    rw [shards_flatten seqs N (by omega)] at h2
    simpa [lookup] using h2

theorem count_kmers_threaded_inv {seqs : List (List Char)} {k N : Nat}
    {t : List (Nat × Nat)} (h : count_kmers_threaded seqs k N = some t) :
    (∀ p ∈ t, 0 < p.2) ∧ (keysOf t).Nodup := by
  unfold count_kmers_threaded at h
  by_cases hN : N = 0
  · rw [if_pos hN] at h
    exact absurd h (by simp)
  · rw [if_neg hN] at h
    obtain ⟨_, hp, hnd⟩ := mergeShards_inv _ (by simp) (by simp) (by simp [keysOf]) h
    exact ⟨hp, hnd⟩

/-- C1: window conservation.  Whenever the parallel counter returns a
CountTable (for any sequence list, any k and any worker count), the sum of all
its count values equals the total number of valid windows, the sum over all
sequences of max(0, len(seq) − k + 1) — written here with truncated `Nat`
subtraction, `len + 1 - k`, which is exactly that maximum. -/
theorem window_conservation (seqs : List (List Char)) (k N : Nat)
    (t : List (Nat × Nat)) (h : count_kmers_threaded seqs k N = some t) :
    sumValues t = (seqs.map (fun s => s.length + 1 - k)).sum := by
  unfold count_kmers_threaded at h
  by_cases hN : N = 0
  · rw [if_pos hN] at h
    exact absurd h (by simp)
  · rw [if_neg hN] at h
    have hshort := mergeShards_short_of_some _ h
    rw [shards_flatten seqs N (by omega)] at hshort
    have hs := mergeShards_sumValues _ h
    rw [shards_flatten seqs N (by omega)] at hs
    have hcong : seqs.map (fun s => s.length - k + 1) =
        seqs.map (fun s => s.length + 1 - k) :=
      List.map_congr_left (fun s hsm => by have := hshort s hsm; omega)
    rw [hcong] at hs
    simpa [sumValues] using hs

/-- C1 witness: the spec example `ACGTACGT`, k = 4, run with two worker
threads: the returned table holds canonical counts 2, 2, 1 and their sum is
the 5 windows ACGT, CGTA, GTAC, TACG, ACGT. -/
theorem window_conservation_witness :
    count_kmers_threaded ["ACGTACGT".toList] 4 2 =
      some [(hash_kmer "ACGT".toList, 2), (hash_kmer "CGTA".toList, 2),
        (hash_kmer "GTAC".toList, 1)] ∧
    sumValues [(hash_kmer "ACGT".toList, 2), (hash_kmer "CGTA".toList, 2),
      (hash_kmer "GTAC".toList, 1)] = 5 := by
  have hcount : count_kmers_threaded ["ACGTACGT".toList] 4 2 =
      some [(hash_kmer "ACGT".toList, 2), (hash_kmer "CGTA".toList, 2),
        (hash_kmer "GTAC".toList, 1)] := by decide
  refine ⟨hcount, ?_⟩
  have h := window_conservation ["ACGTACGT".toList] 4 2 _ hcount
  rw [h]
  decide

theorem mergeShards_equiv_of_flatten_perm {k : Nat}
    {shl1 shl2 : List (List (List Char))}
    (hp : shl1.flatten.Perm shl2.flatten) :
    optTableEquiv (mergeShards shl1 k []) (mergeShards shl2 k []) := by
  have hsum : ∀ q, sumKey (allIncs shl1.flatten k) q
      = sumKey (allIncs shl2.flatten k) q := by
    intro q
    exact sumKey_perm ((hp.map (fun s => seqIncs s k)).flatten) q
  cases e1 : mergeShards shl1 k [] with
  | none =>
    have hc := (mergeShards_eq_none_iff shl1 (by simp)).mp e1
    have h2 : mergeShards shl2 k [] = none := by
      rw [mergeShards_eq_none_iff shl2 (by simp)]
      rcases hc with ⟨s, hs, hlen⟩ | ⟨q, hq⟩
      · exact Or.inl ⟨s, hp.mem_iff.mp hs, hlen⟩
      · refine Or.inr ⟨q, ?_⟩
        rw [hsum q] at hq
        exact hq
    rw [h2]
    trivial
  | some t1 =>
    cases e2 : mergeShards shl2 k [] with
    | none =>
      have hc := (mergeShards_eq_none_iff shl2 (by simp)).mp e2
      have h1 : mergeShards shl1 k [] = none := by
        rw [mergeShards_eq_none_iff shl1 (by simp)]
        rcases hc with ⟨s, hs, hlen⟩ | ⟨q, hq⟩
        · exact Or.inl ⟨s, hp.mem_iff.mpr hs, hlen⟩
        · refine Or.inr ⟨q, ?_⟩
          rw [← hsum q] at hq
          exact hq
      rw [e1] at h1
      exact absurd h1 (by simp)
    | some t2 =>
      obtain ⟨_, hp1, hnd1⟩ :=
        mergeShards_inv shl1 (by simp) (by simp) (by simp [keysOf]) e1
      obtain ⟨_, hp2, hnd2⟩ :=
        mergeShards_inv shl2 (by simp) (by simp) (by simp [keysOf]) e2
      show tableEquiv t1 t2
      intro q c
      have hl1 := mergeShards_lookup shl1 e1 q
      have hl2 := mergeShards_lookup shl2 e2 q
      have hkey : lookup t1 q = lookup t2 q := by
        rw [hl1, hl2, hsum q]
      rw [mem_table_iff q c hnd1 hp1, mem_table_iff q c hnd2 hp2, hkey]

/-- C2: determinism of the parallel counter.  For every sequence list, every
k and all worker counts N1, N2 ≥ 1, the returned CountTables are identical as
sets of key-to-count pairs (in particular any N ≥ 1 agrees with the
sequential N = 1 run), and the shared-table reduction gives the same table
for every completion order (permutation) of the shards. -/
theorem parallel_counter_deterministic (seqs : List (List Char)) (k N1 N2 : Nat)
    (h1 : 1 ≤ N1) (h2 : 1 ≤ N2) :
    optTableEquiv (count_kmers_threaded seqs k N1) (count_kmers_threaded seqs k N2) ∧
    ∀ shardOrder : List (List (List Char)), shardOrder.Perm (shards seqs N1) →
      optTableEquiv (mergeShards shardOrder k []) (count_kmers_threaded seqs k N1) := by
  constructor
  · unfold count_kmers_threaded
    rw [if_neg (by omega), if_neg (by omega)]
    apply mergeShards_equiv_of_flatten_perm
    rw [shards_flatten seqs N1 (by omega), shards_flatten seqs N2 (by omega)]
  · intro shardOrder hperm
    unfold count_kmers_threaded
    rw [if_neg (by omega)]
    exact mergeShards_equiv_of_flatten_perm hperm.flatten

/-- C2 witness: on the input `[ACGT, AC]` with k = 2, running with two worker
threads (one sequence per shard) and with one thread yields the same table. -/
theorem parallel_counter_deterministic_witness :
    optTableEquiv (count_kmers_threaded ["ACGT".toList, "AC".toList] 2 2)
      (count_kmers_threaded ["ACGT".toList, "AC".toList] 2 1) :=
  (parallel_counter_deterministic ["ACGT".toList, "AC".toList] 2 2 1
    (by decide) (by decide)).1

/-- C9: a worker count N ≥ 1 is a precondition of the sharding step of both
binaries: with N = 0 the chunk-size computation `(len + N - 1) / N` panics
(underflow or division by zero) before any table is produced, and for every
N ≥ 1 the shards are a partition of the input list — their concatenation is
the input list itself. -/
theorem worker_count_precondition :
    (∀ (seqs : List (List Char)) (k : Nat), count_kmers_threaded seqs k 0 = none) ∧
    (∀ lines : List (List Char), read_kmer_counts_threaded lines 0 = none) ∧
    (∀ (α : Type) (l : List α) (n : Nat), 1 ≤ n → (shards l n).flatten = l) :=
  ⟨fun _ _ => rfl, fun _ => rfl, fun _ l n hn => shards_flatten l n hn⟩

/-- C9 witness: three items sharded over two workers concatenate back to the
original list. -/
theorem worker_count_precondition_witness :
    (shards [0, 1, 2] 2).flatten = [0, 1, 2] :=
  worker_count_precondition.2.2 Nat [0, 1, 2] 2 (by decide)

end RustyK
